import Mathlib

/-!
Verification of the mathopt/symopt addition-chain and expression-optimization
library.  The Python source is shallowly embedded: Python ints become `Int`
(chain elements, which are always positive, become `Nat`), Python dicts become
association lists, exceptions become `Except PyErr` / `Option`, and the
symbolic-algebra (sympy) operations that the rewriting pipeline delegates to
are abstract function parameters.  The tabulated addition-chain data files
(`David_Wilson_powers`) are external data not present in the sources, so the
chain table is an abstract parameter `table : Int → Option (List (List Nat))`
together with a spec-modelled domain predicate.
-/

namespace MathOpt

/-- Python exception kinds that the embedded functions can raise. -/
inductive PyErr
  | keyError
  | typeError
  | indexError
  | assertionError
deriving DecidableEq, Repr

instance {ε α : Type} [DecidableEq ε] [DecidableEq α] : DecidableEq (Except ε α) := fun x y => by
  cases x <;> cases y
  case error.error a b => exact decidable_of_iff (a = b) (by simp)
  case error.ok a b => exact isFalse (by simp)
  case ok.error a b => exact isFalse (by simp)
  case ok.ok a b => exact decidable_of_iff (a = b) (by simp)

/-- Lookup in a Python dict literal with pairwise-distinct keys
(first matching key wins; keys are unique in the literals used here). -/
def lookupDict {α β : Type} [DecidableEq α] : List (α × β) → α → Option β
  | [], _ => none
  | (k, v) :: ps, a => if a = k then some v else lookupDict ps a

/-- The `shortest_path_costs` dict from `mathopt/addition_chain.py`
(textually identical to the copy in `symopt/addition_chain.py`). -/
def shortest_path_costs : List (Int × Int) :=
  [(1, 1), (2, 2), (3, 3), (4, 3), (5, 4), (6, 4), (7, 5), (8, 4),
  (9, 5), (10, 5), (11, 6), (12, 5), (13, 6), (14, 6), (15, 6), (16, 5),
  (17, 6), (18, 6), (19, 7), (20, 6), (21, 7), (22, 7), (23, 7), (24, 6),
  (25, 7), (26, 7), (27, 7), (28, 7), (29, 8), (30, 7), (31, 8), (32, 6),
  (33, 7), (34, 7), (35, 8), (36, 7), (37, 8), (38, 8), (39, 8), (40, 7),
  (41, 8), (42, 8), (43, 8), (44, 8), (45, 8), (46, 8), (47, 9), (48, 7),
  (49, 8), (50, 8), (51, 8), (52, 8), (53, 9), (54, 8), (55, 9), (56, 8),
  (57, 9), (58, 9), (59, 9), (60, 8), (61, 9), (62, 9), (63, 9), (64, 7),
  (65, 8), (66, 8), (67, 9), (68, 8), (69, 9), (70, 9), (71, 10), (72, 8),
  (73, 9), (74, 9), (75, 9), (76, 9), (77, 9), (78, 9), (79, 10), (80, 8),
  (81, 9), (82, 9), (83, 9), (84, 9), (85, 9), (86, 9), (87, 10), (88, 9),
  (89, 10), (90, 9), (91, 10), (92, 9), (93, 10), (94, 10), (95, 10), (96, 8),
  (97, 9), (98, 9), (99, 9), (100, 9), (101, 10), (102, 9), (103, 10), (104, 9),
  (105, 10), (106, 10), (107, 10), (108, 9), (109, 10), (110, 10), (111, 10), (112, 9),
  (113, 10), (114, 10), (115, 10), (116, 10), (117, 10), (118, 10), (119, 10), (120, 9),
  (121, 10), (122, 10), (123, 10), (124, 10), (125, 10), (126, 10), (127, 11), (128, 8),
  (129, 9), (130, 9), (131, 10), (132, 9), (133, 10), (134, 10), (135, 10), (136, 9),
  (137, 10), (138, 10), (139, 11), (140, 10), (141, 11), (142, 11), (143, 11), (144, 9),
  (145, 10), (146, 10), (147, 10), (148, 10), (149, 10), (150, 10), (151, 11), (152, 10),
  (153, 10), (154, 10), (155, 11), (156, 10), (157, 11), (158, 11), (159, 11), (160, 9),
  (161, 10), (162, 10), (163, 10), (164, 10), (165, 10), (166, 10), (167, 11), (168, 10),
  (169, 11), (170, 10), (171, 11), (172, 10), (173, 11), (174, 11), (175, 11), (176, 10),
  (177, 11), (178, 11), (179, 11), (180, 10), (181, 11), (182, 11), (183, 11), (184, 10),
  (185, 11), (186, 11), (187, 11), (188, 11), (189, 11), (190, 11), (191, 12), (192, 9),
  (193, 10), (194, 10), (195, 10), (196, 10), (197, 11), (198, 10), (199, 11), (200, 10),
  (201, 11), (202, 11), (203, 11), (204, 10), (205, 11), (206, 11), (207, 11), (208, 10),
  (209, 11), (210, 11), (211, 11), (212, 11), (213, 11), (214, 11), (215, 11), (216, 10),
  (217, 11), (218, 11), (219, 11), (220, 11), (221, 11), (222, 11), (223, 12), (224, 10),
  (225, 11), (226, 11), (227, 11), (228, 11), (229, 11), (230, 11), (231, 11), (232, 11),
  (233, 11), (234, 11), (235, 12), (236, 11), (237, 12), (238, 11), (239, 12), (240, 10),
  (241, 11), (242, 11), (243, 11), (244, 11), (245, 11), (246, 11), (247, 12), (248, 11),
  (249, 11), (250, 11), (251, 12), (252, 11), (253, 12), (254, 12), (255, 11), (256, 9),
  (257, 10), (258, 10), (259, 11), (260, 10), (261, 11), (262, 11), (263, 12), (264, 10),
  (265, 11), (266, 11), (267, 12), (268, 11), (269, 12), (270, 11), (271, 12), (272, 10),
  (273, 11), (274, 11), (275, 12), (276, 11), (277, 12), (278, 12), (279, 12), (280, 11),
  (281, 11), (282, 12), (283, 12), (284, 12), (285, 12), (286, 12), (287, 12), (288, 10),
  (289, 11), (290, 11), (291, 11), (292, 11), (293, 11), (294, 11), (295, 12), (296, 11),
  (297, 11), (298, 11), (299, 12), (300, 11), (301, 12), (302, 12), (303, 12), (304, 11),
  (305, 12), (306, 11), (307, 12), (308, 11), (309, 12), (310, 12), (311, 12), (312, 11),
  (313, 12), (314, 12), (315, 12), (316, 12), (317, 12), (318, 12), (319, 12), (320, 10),
  (321, 11), (322, 11), (323, 11)]

/-- `addition_chain_length(power)`: direct lookup in the cost table
(`shortest_path_costs[power]`); a missing key is a Python `KeyError`,
embedded as `none`. -/
def addition_chain_length (power : Int) : Option Int :=
  lookupDict shortest_path_costs power

/-- The accumulation loop of `symopt`'s `addition_chains_naive_length`:
`tot = 0; for p in powers: tot += shortest_path_costs[p]`. -/
def naiveLoop : List Int → Int → Option Int
  | [], tot => some tot
  | p :: ps, tot =>
    match lookupDict shortest_path_costs p with
    | none => none
    | some c => naiveLoop ps (tot + c)

/-- `addition_chains_naive_length(powers)` from `symopt/addition_chain.py`. -/
def addition_chains_naive_length (powers : List Int) : Option Int :=
  naiveLoop powers 0

/-- Evaluate `f` on every element of a list, failing if any application fails
(a Python list comprehension whose body may raise). -/
def mapOpt {α β : Type} (f : α → Option β) : List α → Option (List β)
  | [] => some []
  | a :: as =>
    match f a with
    | none => none
    | some b =>
      match mapOpt f as with
      | none => none
      | some bs => some (b :: bs)

/-- `itertools.product(*lists)` in iteration order: the first list varies
slowest, the last fastest. -/
def prodList {α : Type} : List (List α) → List (List α)
  | [] => [[]]
  | l :: ls => l.flatMap (fun a => (prodList ls).map (a :: ·))

/-- The size of the Python set built by `base.update(v) for v in multi_steps`:
the number of distinct integers appearing in any of the chosen chains. -/
def unionSize (c : List (List Nat)) : Nat :=
  c.flatten.dedup.length

/-- The best-combination loop shared by both multi-power solvers:
starting from `min_lengh = 1000000000, min_steps = None`, a combination
replaces the current best exactly when its union size is `<=` the best so
far (so among ties the last combination in iteration order wins). -/
def minUnionFold (combos : List (List (List Nat))) : Nat × Option (List (List Nat)) :=
  combos.foldl
    (fun st c => if unionSize c ≤ st.1 then (unionSize c, some c) else st)
    (1000000000, none)

/-- `minimum_addition_chain_multi(powers)` from `mathopt/addition_chain.py`,
parameterized by the tabulated-chains mapping `table`
(`tabulated_addition_chains` is loaded from external data files).
A lookup of an untabulated power raises `KeyError`; if the Cartesian product
is empty, `min_steps` stays `None` and `list(None)` raises `TypeError`. -/
def minimum_addition_chain_multi (table : Int → Option (List (List Nat)))
    (powers : List Int) : Except PyErr (Nat × List (List Nat)) :=
  match mapOpt table powers with
  | none => .error .keyError
  | some things_to_try =>
    match minUnionFold (prodList things_to_try) with
    | (m, some steps) => .ok (m, steps)
    | (_, none) => .error .typeError

/-- Modelled from the spec: the `David_Wilson_powers` data files (not present
in the sources) populate `tabulated_addition_chains` with one entry for every
exponent from 2 to 999 and no others, so a lookup succeeds exactly on that
range. -/
def tabulatedDomain (table : Int → Option (List (List Nat))) : Prop :=
  ∀ n : Int, (table n).isSome ↔ 2 ≤ n ∧ n ≤ 999

/-- Python's comparison of the `(len(l2), l2, l)` tuples built inside
`minimum_addition_chain_multi_heuristic`: lexicographic on the length, then
on the reduced chain, then on the original chain (list comparison is itself
lexicographic, which is what the `List Nat` linear order provides). -/
def TripleLe (x y : Nat × List Nat × List Nat) : Prop :=
  x.1 < y.1 ∨ (x.1 = y.1 ∧ (x.2.1 < y.2.1 ∨ (x.2.1 = y.2.1 ∧ x.2.2 ≤ y.2.2)))

instance : DecidableRel TripleLe := fun x y => by
  unfold TripleLe; infer_instance

/-- Python's `sorted` / `list.sort`: since the orders used here are total and
antisymmetric and equal elements are identical values, the sorted output is
the unique sorted permutation, so insertion sort is extensionally equal to
Python's (stable) sort. -/
def pySort {α : Type} (r : α → α → Prop) [DecidableRel r] (l : List α) : List α :=
  l.insertionSort r

/-- `l2 = [v for v in l if v not in small_exponents]`: the chain elements not
already computed by the small-subset solution. -/
def reduceChain (small_exponents : List Nat) (l : List Nat) : List Nat :=
  l.filter (fun v => !(v ∈ small_exponents : Bool))

/-- `new_lengths_i` after its `.sort()`: the `(len(l2), l2, l)` triples of one
remaining power's candidate chains, in sorted order. -/
def shortTriples (small_exponents : List Nat) (poss : List (List Nat)) :
    List (Nat × List Nat × List Nat) :=
  pySort TripleLe
    (poss.map (fun l => ((reduceChain small_exponents l).length, reduceChain small_exponents l, l)))

/-- The triples kept for one remaining power: those whose reduced length
equals `min_length_i = new_lengths_i[0][0]`. -/
def keptTriples (small_exponents : List Nat) (poss : List (List Nat)) :
    List (Nat × List Nat × List Nat) :=
  match shortTriples small_exponents poss with
  | [] => []
  | t :: _ => (shortTriples small_exponents poss).filter (fun u => u.1 = t.1)

/-- `final_lengths_i`: the reduced chains kept for one remaining power. -/
def shortenedOf (small_exponents : List Nat) (poss : List (List Nat)) : List (List Nat) :=
  (keptTriples small_exponents poss).map (fun u => u.2.1)

/-- `shorts_to_original[i]` as an association list in insertion order
(`shorts_to_original[i][tuple(l)] = orig` for each kept triple). -/
def shortsDict (small_exponents : List Nat) (poss : List (List Nat)) :
    List (List Nat × List Nat) :=
  (keptTriples small_exponents poss).map (fun u => (u.2.1, u.2.2))

/-- One iteration of the shortening loop; `new_lengths_i[0]` on an empty
candidate list is a Python `IndexError`, embedded as `none`. -/
def shortenAndMap (small_exponents : List Nat) (poss : List (List Nat)) :
    Option (List (List Nat) × List (List Nat × List Nat)) :=
  match shortTriples small_exponents poss with
  | [] => none
  | _ :: _ => some (shortenedOf small_exponents poss, shortsDict small_exponents poss)

/-- Python dict lookup where the dict was built by repeated assignment:
the most recent assignment for a key wins. -/
def dictLookup {α β : Type} [DecidableEq α] (pairs : List (α × β)) (k : α) : Option β :=
  ((pairs.filter (fun p => p.1 = k)).getLast?).map Prod.snd

/-- `minimum_addition_chain_multi_heuristic(powers, small_chain_length)` from
`mathopt/addition_chain.py`, parameterized by the tabulated-chains mapping. -/
def minimum_addition_chain_multi_heuristic (table : Int → Option (List (List Nat)))
    (powers0 : List Int) (small_chain_length : Nat := 6) :
    Except PyErr (Nat × List (List Nat)) :=
  let powers := pySort (· ≤ ·) powers0
  let small_power_chain := powers.take small_chain_length
  match minimum_addition_chain_multi table small_power_chain with
  | .error e => .error e
  | .ok (small_length, small_steps) =>
    let small_exponents := small_steps.flatten
    let remaining_powers := powers.filter (fun i => !(i ∈ small_power_chain : Bool))
    match mapOpt table remaining_powers with
    | none => .error .keyError
    | some things_to_try =>
      match mapOpt (shortenAndMap small_exponents) things_to_try with
      | none => .error .indexError
      | some shortPairs =>
        let things_to_try_shortened := shortPairs.map Prod.fst
        match minUnionFold (prodList things_to_try_shortened) with
        | (_, none) => .error .typeError
        | (min_lengh, some min_steps) =>
          match mapOpt (fun p => dictLookup p.2.2 p.1) (min_steps.zip shortPairs) with
          | none => .error .keyError
          | some mapped => .ok (small_length + min_lengh, small_steps ++ mapped)

/-- `make_pow_sym(var, power, suffix)` from `mathopt/optimize_terms.py`:
symbols are modelled by their names. -/
def make_pow_sym (varName : String) (power : Int) (suffix : String) : String :=
  if power = 1 then varName ++ suffix else varName ++ toString power ++ suffix

/-- The defining expressions emitted by the chain stages: either the product
`UnevaluatedExpr(sym_a) * sym_b` of two symbols, or the floating power
`var ** float(base_power)` emitted by `replace_fracpowers`. -/
inductive DefExpr
  | mulSym (a b : String)
  | powFloat (base : String) (q : ℚ)
deriving DecidableEq, Repr

/-- The dedup-append step of `integer_chain_symbolic_path`:
`if to_add_asign not in assignments: append to both lists`. -/
def icspStep (st : List String × List DefExpr) (sym : String) (e : DefExpr) :
    List String × List DefExpr :=
  if sym ∈ st.1 then st else (st.1 ++ [sym], st.2 ++ [e])

/-- The `i >= 1` part of the inner loop of `integer_chain_symbolic_path`:
each element `v` is defined as `sym(prev) * sym(v - prev)`. -/
def icspTail (varName sfx : String) :
    List Int → Int → List String × List DefExpr → List String × List DefExpr
  | [], _, st => st
  | v :: vs, prev, st =>
    icspTail varName sfx vs v
      (icspStep st (make_pow_sym varName v sfx)
        (.mulSym (make_pow_sym varName prev sfx) (make_pow_sym varName (v - prev) sfx)))

/-- One chain of `integer_chain_symbolic_path`: the first element must be 2
(`assert v == 2`, an `AssertionError` otherwise, embedded as `none`) and is
defined as `sym(1) * sym(1)`, i.e. `var * var`. -/
def icspChain (varName sfx : String) (l : List Int) (st : List String × List DefExpr) :
    Option (List String × List DefExpr) :=
  match l with
  | [] => some st
  | v :: vs =>
    if v = 2 then
      some (icspTail varName sfx vs v
        (icspStep st (make_pow_sym varName v sfx)
          (.mulSym (make_pow_sym varName 1 sfx) (make_pow_sym varName 1 sfx))))
    else none

/-- The outer loop of `integer_chain_symbolic_path` over all chains. -/
def icspChains (varName sfx : String) :
    List (List Int) → List String × List DefExpr → Option (List String × List DefExpr)
  | [], st => some st
  | l :: ls, st =>
    match icspChain varName sfx l st with
    | none => none
    | some st2 => icspChains varName sfx ls st2

/-- `integer_chain_symbolic_path(chain, var, suffix)` from
`mathopt/optimize_terms.py` (chain elements are Python ints). -/
def integer_chain_symbolic_path (chain : List (List Int)) (varName : String)
    (sfx : String := "") : Option (List String × List DefExpr) :=
  icspChains varName sfx chain ([], [])

/-- The main loop of `singleton_variables_inline`, processing the zipped
`(assignment, expression, count_in_expressions, count_in_expr)` tuples while
threading the running `pow_count` and final expression.  An assignment is
dropped (inlined) when its symbol occurs exactly once in the final expression
and zero times across the defining expressions, unless the substitution
increases the rendered `'**'` count, in which case it is kept. -/
def inlineGo {E S : Type} (replaceE : E → S → E → E) (powCount : E → Nat) :
    List (S × E × Nat × Nat) → Nat → E → List S × List E × E
  | [], _, e => ([], [], e)
  | (a, ex, count_expressions, count_expr) :: rest, pow_count, e =>
    if count_expr = 1 ∧ count_expressions = 0 then
      let expr_tmp := replaceE e a ex
      let pow_count_tmp := powCount expr_tmp
      if pow_count < pow_count_tmp then
        let r := inlineGo replaceE powCount rest pow_count e
        (a :: r.1, ex :: r.2.1, r.2.2)
      else
        inlineGo replaceE powCount rest pow_count_tmp expr_tmp
    else
      let r := inlineGo replaceE powCount rest pow_count e
      (a :: r.1, ex :: r.2.1, r.2.2)

/-- `singleton_variables_inline(assignments, expressions, expr)` from
`mathopt/optimize_terms.py`, parameterized by the sympy operations it
delegates to: `countE e s` is `e.count(s)`, `replaceE e s d` is
`e.replace(s, d)`, and `powCount e` is `str(e).count('**')`.  The occurrence
counts are precomputed against the *input* expression, exactly as in the
source, before the loop starts mutating `expr`. -/
def singleton_variables_inline {E S : Type} (countE : E → S → Nat)
    (replaceE : E → S → E → E) (powCount : E → Nat)
    (assignments : List S) (expressions : List E) (expr : E) :
    List S × List E × E :=
  inlineGo replaceE powCount
    ((assignments.zip expressions).map (fun p =>
      (p.1, p.2, (expressions.map (fun t => countE t p.1)).sum, countE expr p.1)))
    (powCount expr) expr

/-- Python `int(q)` for an exact rational: truncation toward zero. -/
def pyInt (q : ℚ) : Int :=
  q.num.tdiv q.den

/-- The selector `lambda x: int(x) == x` used by `replace_intpowers`. -/
def intSel (x : ℚ) : Bool :=
  x.den = 1

/-- The selector `lambda x: int(x) != x and abs(x) % .25 != 0` used by
`replace_fracpowers`: a non-integer exponent that is not a multiple of 1/4. -/
def fracSel (x : ℚ) : Bool :=
  !(x.den = 1 : Bool) && !((4 * x).den = 1 : Bool)

/-- sympy's `gcd` on two exact rationals:
`gcd(a/b, c/d) = gcd(a, c) / lcm(b, d)`. -/
def ratGcd (a b : ℚ) : ℚ :=
  (Int.gcd a.num b.num : ℚ) / (Nat.lcm a.den b.den : ℚ)

/-- sympy's `gcd` applied to a list of rationals. -/
def ratGcdList : List ℚ → ℚ
  | [] => 0
  | [x] => x
  | x :: xs => ratGcd x (ratGcdList xs)

/-- `replace_intpowers(expr, var)` from `mathopt/optimize_terms.py`,
parameterized by the sympy-dependent operations: `rfp expr var sel` is
`recursive_find_power(expr, var, selector=sel)` (which never reports the
exponents 0 or 1) and `replacePow e var power name` is
`e.replace(var**power, Symbol(name))`. -/
def replace_intpowers {E S : Type}
    (rfp : E → S → (ℚ → Bool) → Finset ℚ)
    (replacePow : E → S → ℚ → String → E)
    (table : Int → Option (List (List Nat)))
    (varName : S → String) (expr : E) (var : S) :
    Except PyErr (E × List String × List DefExpr) :=
  let powers := (rfp expr var intSel).sort (· ≤ ·)
  let powers_int := powers.map pyInt
  match minimum_addition_chain_multi_heuristic table powers_int 0 with
  | .error e => .error e
  | .ok (_, chain) =>
    match integer_chain_symbolic_path (chain.map (fun l => l.map Int.ofNat)) (varName var) "" with
    | none => .error .assertionError
    | some (assignments, expressions) =>
      let replacement_vars := powers.map (fun p => make_pow_sym (varName var) (pyInt p) "")
      let expr2 := ((powers.reverse).zip (replacement_vars.reverse)).foldl
        (fun e pr => replacePow e var pr.1 pr.2) expr
      .ok (expr2, assignments, expressions)

/-- `replace_fracpowers(expr, var)` from `mathopt/optimize_terms.py`,
parameterized like `replace_intpowers`.  With fewer than two qualifying
fractional powers the function is a no-op returning empty plans. -/
def replace_fracpowers {E S : Type}
    (rfp : E → S → (ℚ → Bool) → Finset ℚ)
    (replacePow : E → S → ℚ → String → E)
    (table : Int → Option (List (List Nat)))
    (varName : S → String) (expr : E) (var : S) :
    Except PyErr (E × List String × List DefExpr) :=
  let fractional_powers := rfp expr var fracSel
  if fractional_powers = ∅ ∨ fractional_powers.card = 1 then
    .ok (expr, [], [])
  else
    let fps := fractional_powers.sort (· ≤ ·)
    let base_power := ratGcdList fps
    let powers_int := (fps.map (fun i => pyInt (i / base_power))).filter (fun i => !(i = 1 : Bool))
    let sfx := "_" ++ toString base_power.den
    let var_suffix := varName var ++ sfx
    match minimum_addition_chain_multi_heuristic table powers_int 0 with
    | .error e => .error e
    | .ok (_, chain) =>
      match integer_chain_symbolic_path (chain.map (fun l => l.map Int.ofNat)) (varName var) sfx with
      | none => .error .assertionError
      | some (assignments, expressions) =>
        let replacement_vars := powers_int.map (fun p => make_pow_sym (varName var) p sfx)
        let expr2 := ((fps.reverse).zip (replacement_vars.reverse)).foldl
          (fun e pr => replacePow e var pr.1 pr.2) expr
        let expr3 := replacePow expr2 var base_power var_suffix
        .ok (expr3, var_suffix :: assignments, .powFloat (varName var) base_power :: expressions)

/-- A small concrete chain table used by the witness theorems. -/
def tableW : Int → Option (List (List Nat)) :=
  fun n =>
    if n = 2 then some [[2]]
    else if n = 3 then some [[2, 3]]
    else if n = 5 then some [[2, 3, 5], [2, 4, 5]]
    else if n = 9 then some [[2, 3, 6, 9], [2, 4, 8, 9]]
    else none

/-- A concrete table with the spec-modelled tabulated domain (entries for
exactly the exponents 2–999), used by witness theorems. -/
def tableD : Int → Option (List (List Nat)) :=
  fun n => if 2 ≤ n ∧ n ≤ 999 then some [[2]] else none

/-- Toy instantiations of the sympy-dependent operations, used only by
witness theorems: an expression is a bag of symbol occurrences, counting is
list counting, substitution splices the definition in, and the rendered
power-operator count is constantly zero. -/
def inlineCountW (e : List Nat) (s : Nat) : Nat := e.count s

def inlineReplW (e : List Nat) (s : Nat) (d : List Nat) : List Nat :=
  e.flatMap (fun x => if x = s then d else [x])

def inlinePowW (_ : List Nat) : Nat := 0

/-- Toy CAS operations used only by witness theorems: the finder reports no
powers and substitution is the identity. -/
def rfpW : Nat → Unit → (ℚ → Bool) → Finset ℚ := fun _ _ _ => ∅

def replacePowW : Nat → Unit → ℚ → String → Nat := fun e _ _ _ => e

def varNameW : Unit → String := fun _ => "x"

/-- Concrete stage values for the heuristic-solver witness. -/
def ssW : List (List Nat) := [[2]]

def thingsW : List (List (List Nat)) := [[[2, 3]], [[2, 3, 5], [2, 4, 5]]]

/-!  ### Theorems  -/

theorem tableD_dom : tabulatedDomain tableD := by
  intro n
  unfold tableD
  split <;> simp_all

set_option maxRecDepth 4000 in
/-- Keys of the cost table are exactly 1..323 (bounds used for the
out-of-range lemmas). -/
theorem spc_keys_bounds : ∀ p ∈ shortest_path_costs, 1 ≤ p.1 ∧ p.1 ≤ 323 := by
  decide

theorem lookupDict_eq_none {α β : Type} [DecidableEq α] (ps : List (α × β)) (a : α)
    (h : ∀ p ∈ ps, ¬a = p.1) : lookupDict ps a = none := by
  induction ps with
  | nil => rfl
  | cons p ps ih =>
    simp only [lookupDict]
    rw [if_neg (h p (List.mem_cons_self p ps))]
    exact ih fun q hq => h q (List.mem_cons_of_mem p hq)

set_option maxRecDepth 40000 in
/-- The cost lookup succeeds on all of 1..323. -/
theorem acl_nat_isSome : ∀ n : Nat, n ≤ 323 → 1 ≤ n → (addition_chain_length (n : Int)).isSome := by
  decide

theorem acl_isSome (p : Int) (h1 : 1 ≤ p) (h2 : p ≤ 323) :
    (addition_chain_length p).isSome := by
  have hp : ((p.toNat : Int)) = p := Int.toNat_of_nonneg (by omega)
  have := acl_nat_isSome p.toNat (by omega) (by omega)
  rwa [hp] at this

theorem acl_eq_none_of_gt (p : Int) (h : 323 < p) : addition_chain_length p = none := by
  apply lookupDict_eq_none
  intro q hq he
  have := (spc_keys_bounds q hq).2
  omega

theorem mapOpt_eq_none_of_mem {α β : Type} (f : α → Option β) {l : List α} {a : α}
    (ha : a ∈ l) (hf : f a = none) : mapOpt f l = none := by
  induction l with
  | nil => cases ha
  | cons b bs ih =>
    rcases List.mem_cons.1 ha with rfl | hmem
    · simp [mapOpt, hf]
    · simp only [mapOpt]
      cases f b with
      | none => rfl
      | some v => rw [ih hmem]

/-- The accumulation loop computes the running total plus the sum of the
individual tabulated costs, provided every lookup succeeds. -/
theorem naiveLoop_spec :
    ∀ ps : List Int, (∀ p ∈ ps, (addition_chain_length p).isSome) →
      ∀ t : Int, ∃ costs, mapOpt addition_chain_length ps = some costs ∧
        naiveLoop ps t = some (t + costs.sum) := by
  intro ps
  induction ps with
  | nil =>
    intro _ t
    exact ⟨[], rfl, by simp [naiveLoop]⟩
  | cons p ps ih =>
    intro h t
    obtain ⟨c, hc⟩ := Option.isSome_iff_exists.1 (h p (List.mem_cons_self p ps))
    obtain ⟨costs, hmap, hloop⟩ := ih (fun q hq => h q (List.mem_cons_of_mem p hq)) (t + c)
    refine ⟨c :: costs, ?_, ?_⟩
    · simp [mapOpt, hc, hmap]
    · have : naiveLoop (p :: ps) t = naiveLoop ps (t + c) := by
        simp only [naiveLoop]
        rw [show lookupDict shortest_path_costs p = addition_chain_length p from rfl, hc]
      rw [this, hloop, List.sum_cons]
      ring_nf

set_option maxRecDepth 4000 in
/-- C4: the cost table returns 1 for 1, 2 for 2, 3 for 4, 4 for 8, 8 for 128
and 11 for 323, and it is not strictly monotonic:
`addition_chain_length(64) = 7 < 9 = addition_chain_length(63)`. -/
theorem claim_C4_cost_table_values :
    addition_chain_length 1 = some 1 ∧ addition_chain_length 2 = some 2 ∧
    addition_chain_length 4 = some 3 ∧ addition_chain_length 8 = some 4 ∧
    addition_chain_length 128 = some 8 ∧ addition_chain_length 323 = some 11 ∧
    addition_chain_length 64 = some 7 ∧ addition_chain_length 63 = some 9 ∧
    (7 : Int) < 9 := by
  decide

/-- C6: the cost lookup succeeds on every n in 1..323 (and, being a pure
lookup, has no side effects), fails with `KeyError` (NotFound) for every
positive n above 323, and a multi-power solver lookup of a power outside the
tabulated-chain coverage 2..999 surfaces `KeyError` to the caller. -/
theorem claim_C6_notfound_conditions :
    (∀ n : Nat, n ≤ 323 → 1 ≤ n → (addition_chain_length (n : Int)).isSome) ∧
    (∀ n : Int, 0 < n → 323 < n → addition_chain_length n = none) ∧
    (∀ table : Int → Option (List (List Nat)), tabulatedDomain table →
      ∀ (powers : List Int) (p : Int), p ∈ powers → ¬(2 ≤ p ∧ p ≤ 999) →
        minimum_addition_chain_multi table powers = .error PyErr.keyError) := by
  refine ⟨acl_nat_isSome, fun n _ h2 => acl_eq_none_of_gt n h2, ?_⟩
  intro table hdom powers p hp hrange
  have hnone : table p = none := by
    have := (hdom p).mp
    cases htp : table p with
    | none => rfl
    | some v => exact absurd (this (by rw [htp]; rfl)) hrange
  unfold minimum_addition_chain_multi
  rw [mapOpt_eq_none_of_mem table hp hnone]

theorem claim_C6_witness :
    (addition_chain_length ((5 : Nat) : Int)).isSome ∧
    minimum_addition_chain_multi tableD [1000] = .error PyErr.keyError :=
  ⟨claim_C6_notfound_conditions.1 5 (by decide) (by decide),
   claim_C6_notfound_conditions.2.2 tableD tableD_dom [1000] 1000 (by decide) (by decide)⟩

/-- C9: for powers all in 1..323, `addition_chains_naive_length` returns the
sum of the individual `addition_chain_length` costs (the no-sharing
baseline). -/
theorem claim_C9_naive_length_sum (powers : List Int)
    (h : ∀ p ∈ powers, 1 ≤ p ∧ p ≤ 323) :
    ∃ costs, mapOpt addition_chain_length powers = some costs ∧
      addition_chains_naive_length powers = some costs.sum := by
  obtain ⟨costs, hmap, hloop⟩ :=
    naiveLoop_spec powers (fun p hp => acl_isSome p (h p hp).1 (h p hp).2) 0
  exact ⟨costs, hmap, by rw [addition_chains_naive_length, hloop]; ring_nf⟩

theorem claim_C9_witness :
    ∃ costs, mapOpt addition_chain_length [3, 5, 11] = some costs ∧
      addition_chains_naive_length [3, 5, 11] = some costs.sum :=
  claim_C9_naive_length_sum [3, 5, 11] (by decide)

/-- The running-minimum fold underlying `minUnionFold`'s first component. -/
def minUF (m : Nat) (c : List (List Nat)) : Nat :=
  if unionSize c ≤ m then unionSize c else m

/-- Characterization of the best-combination loop: the first component is the
running minimum of the union sizes (capped by the initial value), and the
second component is the last combination achieving that minimum, if any
combination was ever accepted. -/
theorem minUnionFold_go (L : List (List (List Nat))) :
    ∀ st : Nat × Option (List (List Nat)),
      (L.foldl (fun st c => if unionSize c ≤ st.1 then (unionSize c, some c) else st) st).1 =
        L.foldl minUF st.1 ∧
      (L.foldl (fun st c => if unionSize c ≤ st.1 then (unionSize c, some c) else st) st).2 =
        (match (L.filter (fun c => unionSize c = L.foldl minUF st.1)).getLast? with
         | some c => some c
         | none => st.2) := by
  induction L using List.reverseRecOn with
  | nil => intro st; exact ⟨rfl, rfl⟩
  | append_singleton L c ih =>
    intro st
    obtain ⟨ih1, ih2⟩ := ih st
    rw [List.foldl_append, List.foldl_append, List.foldl_cons, List.foldl_nil,
        List.foldl_cons, List.foldl_nil, List.filter_append]
    by_cases h : unionSize c ≤ (L.foldl
        (fun st c => if unionSize c ≤ st.1 then (unionSize c, some c) else st) st).1
    · rw [if_pos h]
      rw [ih1] at h
      constructor
      · show unionSize c = minUF (L.foldl minUF st.1) c
        rw [minUF, if_pos h]
      · have hm : minUF (L.foldl minUF st.1) c = unionSize c := by rw [minUF, if_pos h]
        rw [hm]
        have hc : List.filter (fun c' => decide (unionSize c' = unionSize c)) [c] = [c] := by
          simp
        rw [hc, List.getLast?_append]
        simp
    · rw [if_neg h]
      rw [ih1] at h
      have hm : minUF (L.foldl minUF st.1) c = L.foldl minUF st.1 := by rw [minUF, if_neg h]
      rw [hm]
      have hne' : ¬unionSize c = L.foldl minUF st.1 := fun he => h (le_of_eq he)
      have hc : List.filter (fun c' => decide (unionSize c' = L.foldl minUF st.1)) [c] = [] := by
        rw [List.filter_cons, if_neg (by simpa using hne'), List.filter_nil]
      rw [hc, List.append_nil]
      exact ⟨ih1, ih2⟩

theorem minUF_fold_le_init : ∀ (L : List (List (List Nat))) (m0 : Nat), L.foldl minUF m0 ≤ m0 := by
  intro L
  induction L with
  | nil => intro m0; exact le_refl m0
  | cons c L ih =>
    intro m0
    rw [List.foldl_cons]
    refine le_trans (ih (minUF m0 c)) ?_
    rw [minUF]
    split
    · assumption
    · exact le_refl m0

theorem minUF_fold_le_mem {c : List (List Nat)} :
    ∀ (L : List (List (List Nat))) (m0 : Nat), c ∈ L → L.foldl minUF m0 ≤ unionSize c := by
  intro L
  induction L with
  | nil => intro m0 hc; cases hc
  | cons d L ih =>
    intro m0 hc
    rw [List.foldl_cons]
    rcases List.mem_cons.1 hc with rfl | hmem
    · refine le_trans (minUF_fold_le_init L (minUF m0 c)) ?_
      rw [minUF]
      split
      · exact le_refl _
      · omega
    · exact ih (minUF m0 d) hmem

theorem minUF_fold_cases :
    ∀ (L : List (List (List Nat))) (m0 : Nat),
      L.foldl minUF m0 = m0 ∨ ∃ c ∈ L, L.foldl minUF m0 = unionSize c := by
  intro L
  induction L with
  | nil => intro m0; exact Or.inl rfl
  | cons d L ih =>
    intro m0
    rw [List.foldl_cons]
    rcases ih (minUF m0 d) with h | ⟨c, hc, he⟩
    · rw [h, minUF]
      split
      · exact Or.inr ⟨d, List.mem_cons_self d L, rfl⟩
      · exact Or.inl rfl
    · exact Or.inr ⟨c, List.mem_cons_of_mem d hc, he⟩

theorem prodList_ne_nil {α : Type} :
    ∀ ls : List (List α), (∀ l ∈ ls, l ≠ []) → prodList ls ≠ [] := by
  intro ls
  induction ls with
  | nil => intro _ h; simp [prodList] at h
  | cons l ls ih =>
    intro h
    have hl : l ≠ [] := h l (List.mem_cons_self l ls)
    have hp : prodList ls ≠ [] := ih fun m hm => h m (List.mem_cons_of_mem l hm)
    obtain ⟨a, ha⟩ := List.exists_mem_of_ne_nil l hl
    obtain ⟨c0, hc0⟩ := List.exists_mem_of_ne_nil (prodList ls) hp
    have : (a :: c0) ∈ prodList (l :: ls) := by
      rw [prodList]
      exact List.mem_flatMap.2 ⟨a, ha, List.mem_map_of_mem _ hc0⟩
    exact List.ne_nil_of_mem this

/-- When every tabulated lookup succeeds, the exact solver reduces to the
best-combination loop over the Cartesian product. -/
theorem multi_eq_of (table : Int → Option (List (List Nat))) (powers : List Int)
    (things : List (List (List Nat))) (htab : mapOpt table powers = some things) :
    minimum_addition_chain_multi table powers =
      (match minUnionFold (prodList things) with
       | (m, some steps) => .ok (m, steps)
       | (_, none) => .error PyErr.typeError) := by
  unfold minimum_addition_chain_multi
  rw [htab]

/-- C1: on tabulated powers, `minimum_addition_chain_multi` returns the
minimum, over the Cartesian product of the powers' chain lists, of the number
of distinct integers appearing in the chosen chains, together with the last
combination (in `itertools.product` order) achieving that minimum; a later
combination replaces the best exactly when its union size is `<=` the best. -/
theorem claim_C1_multi_solver_minimum (table : Int → Option (List (List Nat)))
    (powers : List Int) (things : List (List (List Nat)))
    (htab : mapOpt table powers = some things)
    (hne : ∀ l ∈ things, l ≠ [])
    (hbound : ∀ c ∈ prodList things, unionSize c < 1000000000) :
    ∃ m steps, minimum_addition_chain_multi table powers = .ok (m, steps) ∧
      (∀ c ∈ prodList things, m ≤ unionSize c) ∧
      ((prodList things).filter (fun c => unionSize c = m)).getLast? = some steps := by
  obtain ⟨h1, h2⟩ := minUnionFold_go (prodList things) (1000000000, none)
  set M := (prodList things).foldl minUF 1000000000 with hM
  obtain ⟨c0, hc0⟩ := List.exists_mem_of_ne_nil (prodList things) (prodList_ne_nil things hne)
  have hlt : M < 1000000000 :=
    lt_of_le_of_lt (minUF_fold_le_mem (prodList things) 1000000000 hc0) (hbound c0 hc0)
  have hach : ∃ c ∈ prodList things, M = unionSize c := by
    rcases minUF_fold_cases (prodList things) 1000000000 with h | h
    · omega
    · exact h
  obtain ⟨ca, hca, hMa⟩ := hach
  have hfilt : ca ∈ (prodList things).filter (fun c => unionSize c = M) := by
    rw [List.mem_filter]
    exact ⟨hca, by simp [hMa]⟩
  have hlast : ((prodList things).filter (fun c => unionSize c = M)).getLast?.isSome := by
    rw [List.getLast?_isSome]
    exact List.ne_nil_of_mem hfilt
  obtain ⟨steps, hsteps⟩ := Option.isSome_iff_exists.1 hlast
  refine ⟨M, steps, ?_, ?_, hsteps⟩
  · have hfold : minUnionFold (prodList things) = (M, some steps) := by
      rw [minUnionFold]
      have h2' := h2
      rw [hsteps] at h2'
      exact Prod.ext h1 h2'
    rw [multi_eq_of table powers things htab, hfold]
  · intro c hc
    exact minUF_fold_le_mem (prodList things) 1000000000 hc

theorem claim_C1_witness :
    ∃ m steps,
      minimum_addition_chain_multi tableW [3, 5] = .ok (m, steps) ∧
      (∀ c ∈ prodList [[[2, 3]], [[2, 3, 5], [2, 4, 5]]], m ≤ unionSize c) ∧
      ((prodList [[[2, 3]], [[2, 3, 5], [2, 4, 5]]]).filter
        (fun c => unionSize c = m)).getLast? = some steps :=
  claim_C1_multi_solver_minimum tableW [3, 5] [[[2, 3]], [[2, 3, 5], [2, 4, 5]]]
    (by decide) (by decide) (by decide)

/-- C10: when all powers fit in the exactly-solved subset
(`len(powers) <= small_chain_length`), the heuristic solver returns exactly
the result of the exact solver on the powers sorted ascending: the remaining
set is empty and contributes zero length and no steps. -/
theorem claim_C10_heuristic_degenerates (table : Int → Option (List (List Nat)))
    (powers : List Int) (k : Nat) (hk : powers.length ≤ k) :
    minimum_addition_chain_multi_heuristic table powers k =
      minimum_addition_chain_multi table (pySort (· ≤ ·) powers) := by
  have hlen : (pySort (α := Int) (· ≤ ·) powers).length ≤ k := by
    rw [pySort, List.length_insertionSort]
    exact hk
  have htake : (pySort (α := Int) (· ≤ ·) powers).take k = pySort (· ≤ ·) powers :=
    List.take_of_length_le hlen
  simp only [minimum_addition_chain_multi_heuristic]
  rw [htake]
  cases h : minimum_addition_chain_multi table (pySort (· ≤ ·) powers) with
  | error e => rfl
  | ok p =>
    obtain ⟨sl, ss⟩ := p
    have hfil : (pySort (α := Int) (· ≤ ·) powers).filter
        (fun i => !(i ∈ pySort (α := Int) (· ≤ ·) powers : Bool)) = [] := by
      rw [List.filter_eq_nil_iff]
      intro a ha
      simp [ha]
    rw [hfil]
    show Except.ok (sl + 0, ss ++ []) = Except.ok (sl, ss)
    simp

theorem claim_C10_witness :
    minimum_addition_chain_multi_heuristic tableW [5, 3] 2 =
      minimum_addition_chain_multi tableW (pySort (· ≤ ·) [5, 3]) :=
  claim_C10_heuristic_degenerates tableW [5, 3] 2 (by decide)

/-- State invariant for the symbolic-path builder: the assignment symbols are
pairwise distinct, the two lists run in parallel, and every
(symbol, defining-expression) pair satisfies `P`. -/
def StInv (P : String → DefExpr → Prop) (st : List String × List DefExpr) : Prop :=
  st.1.Nodup ∧ st.1.length = st.2.length ∧
  ∀ (i : Nat) (s : String) (e : DefExpr), st.1[i]? = some s → st.2[i]? = some e → P s e

theorem icspStep_inv (P : String → DefExpr → Prop) (st : List String × List DefExpr)
    (sym : String) (e : DefExpr) (h : StInv P st) (he : P sym e) :
    StInv P (icspStep st sym e) := by
  obtain ⟨hnd, hlen, hP⟩ := h
  rw [icspStep]
  split
  · exact ⟨hnd, hlen, hP⟩
  · refine ⟨?_, ?_, ?_⟩
    · rw [List.nodup_append]
      exact ⟨hnd, List.nodup_singleton sym, by simpa using fun hmem => by simp_all⟩
    · simp [hlen]
    · intro i s d h1 h2
      dsimp only at h1 h2
      rcases lt_trichotomy i st.1.length with hi | hi | hi
      · rw [List.getElem?_append_left hi] at h1
        rw [List.getElem?_append_left (hlen ▸ hi)] at h2
        exact hP i s d h1 h2
      · subst hi
        rw [List.getElem?_concat_length] at h1
        rw [hlen, List.getElem?_concat_length] at h2
        cases h1
        cases h2
        exact he
      · rw [List.getElem?_eq_none (by simp; omega)] at h1
        cases h1

theorem icspTail_inv (P : String → DefExpr → Prop) (varName sfx : String) :
    ∀ (vs : List Int) (prev : Int) (st : List String × List DefExpr), StInv P st →
      (∀ pr ∈ (prev :: vs).zip vs,
        P (make_pow_sym varName pr.2 sfx)
          (.mulSym (make_pow_sym varName pr.1 sfx) (make_pow_sym varName (pr.2 - pr.1) sfx))) →
      StInv P (icspTail varName sfx vs prev st) := by
  intro vs
  induction vs with
  | nil => intro prev st h _; exact h
  | cons v vs ih =>
    intro prev st h hpairs
    rw [icspTail]
    refine ih v _ (icspStep_inv P st _ _ h ?_) ?_
    · exact hpairs (prev, v) (by simp [List.zip_cons_cons])
    · intro pr hpr
      refine hpairs pr ?_
      rcases vs with _ | ⟨w, ws⟩
      · simp at hpr
      · rw [List.zip_cons_cons] at hpr ⊢
        rw [List.zip_cons_cons]
        exact List.mem_cons_of_mem _ hpr

theorem icspChain_inv (P : String → DefExpr → Prop) (varName sfx : String)
    (l : List Int) (st st' : List String × List DefExpr) (h : StInv P st)
    (hhead : ∀ v vs, l = v :: vs → v = 2 ∧
      P (make_pow_sym varName 2 sfx)
        (.mulSym (make_pow_sym varName 1 sfx) (make_pow_sym varName 1 sfx)))
    (htail : ∀ pr ∈ l.zip l.tail,
      P (make_pow_sym varName pr.2 sfx)
        (.mulSym (make_pow_sym varName pr.1 sfx) (make_pow_sym varName (pr.2 - pr.1) sfx)))
    (hrun : icspChain varName sfx l st = some st') : StInv P st' := by
  rcases l with _ | ⟨v, vs⟩
  · rw [icspChain] at hrun
    cases hrun
    exact h
  · obtain ⟨hv2, hPh⟩ := hhead v vs rfl
    subst hv2
    rw [icspChain, if_pos rfl] at hrun
    cases hrun
    exact icspTail_inv P varName sfx vs 2 _ (icspStep_inv P st _ _ h hPh)
      (by simpa using htail)

theorem icspChains_inv (P : String → DefExpr → Prop) (varName sfx : String) :
    ∀ (ls : List (List Int)) (st st' : List String × List DefExpr), StInv P st →
      (∀ l ∈ ls, (∀ v vs, l = v :: vs → v = 2 ∧
          P (make_pow_sym varName 2 sfx)
            (.mulSym (make_pow_sym varName 1 sfx) (make_pow_sym varName 1 sfx))) ∧
        (∀ pr ∈ l.zip l.tail,
          P (make_pow_sym varName pr.2 sfx)
            (.mulSym (make_pow_sym varName pr.1 sfx)
              (make_pow_sym varName (pr.2 - pr.1) sfx)))) →
      icspChains varName sfx ls st = some st' → StInv P st' := by
  intro ls
  induction ls with
  | nil =>
    intro st st' h _ hrun
    rw [icspChains] at hrun
    cases hrun
    exact h
  | cons l ls ih =>
    intro st st' h hls hrun
    rw [icspChains] at hrun
    cases hc : icspChain varName sfx l st with
    | none => rw [hc] at hrun; cases hrun
    | some st2 =>
      rw [hc] at hrun
      have h2 := icspChain_inv P varName sfx l st st2 h
        (hls l (List.mem_cons_self l ls)).1 (hls l (List.mem_cons_self l ls)).2 hc
      exact ih st2 st' h2 (fun m hm => hls m (List.mem_cons_of_mem l hm)) hrun

/-- C8: when every chain starts with 2, `integer_chain_symbolic_path` returns
parallel lists in which no assignment symbol is defined twice; the symbol for
chain element 2 is defined as `var * var`, and the symbol for every
subsequent chain element `v` is defined as the product of the symbol for the
immediately preceding element `prev` and the symbol for `v - prev`. -/
theorem claim_C8_symbolic_path (chain : List (List Int)) (varName sfx : String)
    (as : List String) (es : List DefExpr)
    (hfirst : ∀ l ∈ chain, l = [] ∨ l.head? = some 2)
    (hrun : integer_chain_symbolic_path chain varName sfx = some (as, es)) :
    as.Nodup ∧ as.length = es.length ∧
    ∀ (i : Nat) (s : String) (e : DefExpr), as[i]? = some s → es[i]? = some e →
      (s = make_pow_sym varName 2 sfx ∧
        e = .mulSym (make_pow_sym varName 1 sfx) (make_pow_sym varName 1 sfx)) ∨
      (∃ l ∈ chain, ∃ pr ∈ l.zip l.tail,
        s = make_pow_sym varName pr.2 sfx ∧
        e = .mulSym (make_pow_sym varName pr.1 sfx)
          (make_pow_sym varName (pr.2 - pr.1) sfx)) := by
  have hinv := icspChains_inv
    (fun s e =>
      (s = make_pow_sym varName 2 sfx ∧
        e = .mulSym (make_pow_sym varName 1 sfx) (make_pow_sym varName 1 sfx)) ∨
      (∃ l ∈ chain, ∃ pr ∈ l.zip l.tail,
        s = make_pow_sym varName pr.2 sfx ∧
        e = .mulSym (make_pow_sym varName pr.1 sfx)
          (make_pow_sym varName (pr.2 - pr.1) sfx)))
    varName sfx chain ([], []) (as, es)
    ⟨List.nodup_nil, rfl, by intro i s e h1 _; simp at h1⟩
    (fun l hl =>
      ⟨fun v vs he => by
        rcases hfirst l hl with h0 | h0
        · rw [he] at h0; cases h0
        · rw [he] at h0
          simp only [List.head?_cons, Option.some.injEq] at h0
          exact ⟨h0, Or.inl ⟨rfl, rfl⟩⟩,
       fun pr hpr => Or.inr ⟨l, hl, pr, hpr, rfl, rfl⟩⟩)
    hrun
  exact hinv

theorem claim_C8_witness :
    ∃ as es,
      integer_chain_symbolic_path [[2, 3], [2, 4]] "x" "" = some (as, es) ∧
      (as.Nodup ∧ as.length = es.length ∧
        ∀ (i : Nat) (s : String) (e : DefExpr), as[i]? = some s → es[i]? = some e →
          (s = make_pow_sym "x" 2 "" ∧
            e = .mulSym (make_pow_sym "x" 1 "") (make_pow_sym "x" 1 "")) ∨
          (∃ l ∈ [[2, 3], [2, 4]], ∃ pr ∈ l.zip l.tail,
            s = make_pow_sym "x" pr.2 "" ∧
            e = .mulSym (make_pow_sym "x" pr.1 "")
              (make_pow_sym "x" (pr.2 - pr.1) ""))) := by
  refine ⟨["x2", "x3", "x4"],
    [.mulSym "x" "x", .mulSym "x2" "x", .mulSym "x2" "x2"], ?_, ?_⟩
  · decide
  · exact claim_C8_symbolic_path [[2, 3], [2, 4]] "x" ""
      ["x2", "x3", "x4"] [.mulSym "x" "x", .mulSym "x2" "x", .mulSym "x2" "x2"]
      (by decide) (by decide)

/-- Invariants of the singleton-inlining loop: an entry can be dropped only
if its precomputed counts are `(1, 0)` and its substitution did not increase
the rendered power count at the step where it was applied; entries failing
the count test are always kept; and the running power count never rises. -/
theorem inlineGo_inv {E S : Type} (replaceE : E → S → E → E) (powCount : E → Nat) :
    ∀ (quad : List (S × E × Nat × Nat)) (powc : Nat) (e : E), powc = powCount e →
      (∀ p ∈ quad, p.1 ∉ (inlineGo replaceE powCount quad powc e).1 →
        p.2.2.2 = 1 ∧ p.2.2.1 = 0 ∧
        ∃ e' : E, powCount (replaceE e' p.1 p.2.1) ≤ powCount e') ∧
      (∀ p ∈ quad, p.2.2.2 ≠ 1 ∨ p.2.2.1 ≠ 0 →
        p.1 ∈ (inlineGo replaceE powCount quad powc e).1) ∧
      powCount (inlineGo replaceE powCount quad powc e).2.2 ≤ powCount e := by
  intro quad
  induction quad with
  | nil =>
    intro powc e hpc
    refine ⟨?_, ?_, ?_⟩
    · intro p hp; cases hp
    · intro p hp; cases hp
    · rw [inlineGo]
  | cons q rest ih =>
    intro powc e hpc
    obtain ⟨a, ex, cs, ce⟩ := q
    rw [inlineGo]
    by_cases h1 : ce = 1 ∧ cs = 0
    · rw [if_pos h1]
      by_cases h2 : powc < powCount (replaceE e a ex)
      · rw [if_pos h2]
        obtain ⟨ih1, ih2, ih3⟩ := ih powc e hpc
        refine ⟨?_, ?_, ih3⟩
        · intro p hp hmem
          rcases List.mem_cons.1 hp with rfl | hp'
          · exact absurd (List.mem_cons_self _ _) hmem
          · exact ih1 p hp' (fun hin => hmem (List.mem_cons_of_mem _ hin))
        · intro p hp hcond
          rcases List.mem_cons.1 hp with rfl | hp'
          · exact List.mem_cons_self _ _
          · exact List.mem_cons_of_mem _ (ih2 p hp' hcond)
      · rw [if_neg h2]
        obtain ⟨ih1, ih2, ih3⟩ := ih (powCount (replaceE e a ex)) (replaceE e a ex) rfl
        refine ⟨?_, ?_, ?_⟩
        · intro p hp hmem
          rcases List.mem_cons.1 hp with rfl | hp'
          · refine ⟨h1.1, h1.2, e, ?_⟩
            show powCount (replaceE e a ex) ≤ powCount e
            omega
          · exact ih1 p hp' hmem
        · intro p hp hcond
          rcases List.mem_cons.1 hp with rfl | hp'
          · rcases hcond with hc | hc
            · exact absurd h1.1 hc
            · exact absurd h1.2 hc
          · exact ih2 p hp' hcond
        · calc powCount (inlineGo replaceE powCount rest
              (powCount (replaceE e a ex)) (replaceE e a ex)).2.2
              ≤ powCount (replaceE e a ex) := ih3
            _ ≤ powCount e := by omega
    · rw [if_neg h1]
      obtain ⟨ih1, ih2, ih3⟩ := ih powc e hpc
      refine ⟨?_, ?_, ih3⟩
      · intro p hp hmem
        rcases List.mem_cons.1 hp with rfl | hp'
        · exact absurd (List.mem_cons_self _ _) hmem
        · exact ih1 p hp' (fun hin => hmem (List.mem_cons_of_mem _ hin))
      · intro p hp hcond
        rcases List.mem_cons.1 hp with rfl | hp'
        · exact List.mem_cons_self _ _
        · exact List.mem_cons_of_mem _ (ih2 p hp' hcond)

/-- C5: `singleton_variables_inline` removes an assignment only when its
symbol occurs exactly once in the final expression and zero times across the
generated defining expressions and the substitution does not increase the
rendered `'**'` count; every assignment symbol whose counts fail that test
(in particular, one referenced more than once in the final expression or
referenced inside another defining expression) is kept; and the rendered
power count of the returned expression never exceeds the input's. -/
theorem claim_C5_singleton_inline {E S : Type} (countE : E → S → Nat)
    (replaceE : E → S → E → E) (powCount : E → Nat)
    (assignments : List S) (expressions : List E) (expr : E)
    (nA : List S) (nE : List E) (fE : E)
    (hrun : singleton_variables_inline countE replaceE powCount
      assignments expressions expr = (nA, nE, fE)) :
    (∀ pr ∈ assignments.zip expressions, pr.1 ∉ nA →
      countE expr pr.1 = 1 ∧ (expressions.map (fun t => countE t pr.1)).sum = 0 ∧
      ∃ e' : E, powCount (replaceE e' pr.1 pr.2) ≤ powCount e') ∧
    (∀ pr ∈ assignments.zip expressions,
      countE expr pr.1 ≠ 1 ∨ (expressions.map (fun t => countE t pr.1)).sum ≠ 0 →
      pr.1 ∈ nA) ∧
    powCount fE ≤ powCount expr := by
  obtain ⟨g1, g2, g3⟩ := inlineGo_inv replaceE powCount
    ((assignments.zip expressions).map (fun p =>
      (p.1, p.2, (expressions.map (fun t => countE t p.1)).sum, countE expr p.1)))
    (powCount expr) expr rfl
  rw [singleton_variables_inline] at hrun
  rw [hrun] at g1 g2 g3
  refine ⟨?_, ?_, g3⟩
  · intro pr hpr hmem
    exact g1 _ (List.mem_map_of_mem _ hpr) hmem
  · intro pr hpr hcond
    exact g2 _ (List.mem_map_of_mem _ hpr) hcond

theorem claim_C5_witness :
    (∀ pr ∈ ([1, 2] : List Nat).zip ([[0, 0], [1, 1]] : List (List Nat)),
      pr.1 ∉ ([1, 2] : List Nat) →
      inlineCountW [1, 2, 2] pr.1 = 1 ∧
      (([[0, 0], [1, 1]] : List (List Nat)).map
        (fun t => inlineCountW t pr.1)).sum = 0 ∧
      ∃ e' : List Nat, inlinePowW (inlineReplW e' pr.1 pr.2) ≤ inlinePowW e') ∧
    (∀ pr ∈ ([1, 2] : List Nat).zip ([[0, 0], [1, 1]] : List (List Nat)),
      inlineCountW [1, 2, 2] pr.1 ≠ 1 ∨
      (([[0, 0], [1, 1]] : List (List Nat)).map
        (fun t => inlineCountW t pr.1)).sum ≠ 0 →
      pr.1 ∈ ([1, 2] : List Nat)) ∧
    inlinePowW [1, 2, 2] ≤ inlinePowW [1, 2, 2] :=
  claim_C5_singleton_inline inlineCountW inlineReplW inlinePowW
    [1, 2] [[0, 0], [1, 1]] [1, 2, 2] [1, 2] [[0, 0], [1, 1]] [1, 2, 2] (by decide)

/-- C7: `replace_fracpowers` is a no-op (expression unchanged, empty plans,
no error) whenever fewer than two qualifying fractional exponents are found,
and `replace_intpowers` is a no-op when no strictly-integer power other than
0 or 1 of the variable occurs. -/
theorem claim_C7_degenerate_noops {E S : Type}
    (rfp : E → S → (ℚ → Bool) → Finset ℚ)
    (replacePow : E → S → ℚ → String → E)
    (table : Int → Option (List (List Nat)))
    (varName : S → String) (expr : E) (var : S) :
    ((rfp expr var fracSel).card ≤ 1 →
      replace_fracpowers rfp replacePow table varName expr var = .ok (expr, [], [])) ∧
    (rfp expr var intSel = ∅ →
      replace_intpowers rfp replacePow table varName expr var = .ok (expr, [], [])) := by
  constructor
  · intro hcard
    unfold replace_fracpowers
    rw [if_pos]
    rcases Nat.le_one_iff_eq_zero_or_eq_one.1 hcard with h0 | h1
    · exact Or.inl (Finset.card_eq_zero.1 h0)
    · exact Or.inr h1
  · intro hempty
    unfold replace_intpowers
    rw [hempty, Finset.sort_empty]
    rfl

theorem claim_C7_witness :
    replace_fracpowers rfpW replacePowW tableW varNameW 7 () = .ok (7, [], []) ∧
    replace_intpowers rfpW replacePowW tableW varNameW 7 () = .ok (7, [], []) :=
  ⟨(claim_C7_degenerate_noops rfpW replacePowW tableW varNameW 7 ()).1 (by simp [rfpW]),
   (claim_C7_degenerate_noops rfpW replacePowW tableW varNameW 7 ()).2 rfl⟩

theorem tripleLe_total : ∀ x y : Nat × List Nat × List Nat, TripleLe x y ∨ TripleLe y x := by
  intro x y
  rcases lt_trichotomy x.1 y.1 with h | h | h
  · exact Or.inl (Or.inl h)
  · rcases lt_trichotomy x.2.1 y.2.1 with h2 | h2 | h2
    · exact Or.inl (Or.inr ⟨h, Or.inl h2⟩)
    · rcases le_total x.2.2 y.2.2 with h3 | h3
      · exact Or.inl (Or.inr ⟨h, Or.inr ⟨h2, h3⟩⟩)
      · exact Or.inr (Or.inr ⟨h.symm, Or.inr ⟨h2.symm, h3⟩⟩)
    · exact Or.inr (Or.inr ⟨h.symm, Or.inl h2⟩)
  · exact Or.inr (Or.inl h)

theorem tripleLe_trans :
    ∀ x y z : Nat × List Nat × List Nat, TripleLe x y → TripleLe y z → TripleLe x z := by
  intro x y z hxy hyz
  rcases hxy with h1 | ⟨e1, h1⟩
  · rcases hyz with h2 | ⟨e2, h2⟩
    · exact Or.inl (h1.trans h2)
    · exact Or.inl (by omega)
  · rcases hyz with h2 | ⟨e2, h2⟩
    · exact Or.inl (by omega)
    · refine Or.inr ⟨e1.trans e2, ?_⟩
      rcases h1 with h1 | ⟨f1, h1⟩
      · rcases h2 with h2 | ⟨f2, h2⟩
        · exact Or.inl (h1.trans h2)
        · exact Or.inl (f2 ▸ h1)
      · rcases h2 with h2 | ⟨f2, h2⟩
        · exact Or.inl (f1 ▸ h2)
        · exact Or.inr ⟨f1.trans f2, h1.trans h2⟩

instance : IsTotal (Nat × List Nat × List Nat) TripleLe :=
  ⟨tripleLe_total⟩

instance : IsTrans (Nat × List Nat × List Nat) TripleLe :=
  ⟨tripleLe_trans⟩

theorem tripleLe_fst {x y : Nat × List Nat × List Nat} (h : TripleLe x y) : x.1 ≤ y.1 := by
  rcases h with h | ⟨e, _⟩
  · omega
  · omega

theorem getLast?_mem' {α : Type} {l : List α} {a : α} (h : l.getLast? = some a) : a ∈ l := by
  have hx : a ∈ l.getLast? := by rw [h]; rfl
  obtain ⟨hne, he⟩ := List.mem_getLast?_eq_getLast hx
  rw [he]
  exact List.getLast_mem hne

theorem mapOpt_some_length {α β : Type} (f : α → Option β) :
    ∀ {l : List α} {r : List β}, mapOpt f l = some r → r.length = l.length := by
  intro l
  induction l with
  | nil => intro r h; rw [mapOpt] at h; cases h; rfl
  | cons a as ih =>
    intro r h
    rw [mapOpt] at h
    cases hf : f a with
    | none => rw [hf] at h; cases h
    | some b =>
      rw [hf] at h
      cases hm : mapOpt f as with
      | none => rw [hm] at h; cases h
      | some bs =>
        rw [hm] at h
        cases h
        simp [ih hm]

theorem mapOpt_some_get {α β : Type} (f : α → Option β) :
    ∀ {l : List α} {r : List β}, mapOpt f l = some r →
      ∀ (i : Nat) (a : α), l[i]? = some a → ∃ b, f a = some b ∧ r[i]? = some b := by
  intro l
  induction l with
  | nil => intro r _ i a ha; simp at ha
  | cons x xs ih =>
    intro r h i a ha
    rw [mapOpt] at h
    cases hf : f x with
    | none => rw [hf] at h; cases h
    | some b =>
      rw [hf] at h
      cases hm : mapOpt f xs with
      | none => rw [hm] at h; cases h
      | some bs =>
        rw [hm] at h
        cases h
        cases i with
        | zero =>
          simp only [List.getElem?_cons_zero, Option.some.injEq] at ha
          subst ha
          exact ⟨b, hf, by simp⟩
        | succ j =>
          simp only [List.getElem?_cons_succ] at ha ⊢
          exact ih hm j a ha

theorem mapOpt_eq_map {α β : Type} (f : α → Option β) (g : α → β) :
    ∀ l : List α, (∀ a ∈ l, f a = some (g a)) → mapOpt f l = some (l.map g) := by
  intro l
  induction l with
  | nil => intro _; rfl
  | cons a as ih =>
    intro h
    rw [mapOpt, h a (List.mem_cons_self a as), ih fun b hb => h b (List.mem_cons_of_mem a hb)]
    rfl

theorem mapOpt_isSome {α β : Type} (f : α → Option β) :
    ∀ l : List α, (∀ a ∈ l, (f a).isSome) → ∃ r, mapOpt f l = some r := by
  intro l
  induction l with
  | nil => intro _; exact ⟨[], rfl⟩
  | cons a as ih =>
    intro h
    obtain ⟨b, hb⟩ := Option.isSome_iff_exists.1 (h a (List.mem_cons_self a as))
    obtain ⟨r, hr⟩ := ih fun x hx => h x (List.mem_cons_of_mem a hx)
    exact ⟨b :: r, by rw [mapOpt, hb, hr]⟩

/-- The best-combination loop on a nonempty list of combinations whose union
sizes are all below the sentinel returns the minimum union size and the last
combination achieving it. -/
theorem minUnionFold_result (combos : List (List (List Nat)))
    (hne : combos ≠ []) (hbound : ∀ c ∈ combos, unionSize c < 1000000000) :
    ∃ M cc, minUnionFold combos = (M, some cc) ∧
      (∀ c ∈ combos, M ≤ unionSize c) ∧
      (combos.filter (fun c => unionSize c = M)).getLast? = some cc := by
  obtain ⟨h1, h2⟩ := minUnionFold_go combos (1000000000, none)
  obtain ⟨c0, hc0⟩ := List.exists_mem_of_ne_nil combos hne
  have hlt : combos.foldl minUF 1000000000 < 1000000000 :=
    lt_of_le_of_lt (minUF_fold_le_mem combos 1000000000 hc0) (hbound c0 hc0)
  have hach : ∃ c ∈ combos, combos.foldl minUF 1000000000 = unionSize c := by
    rcases minUF_fold_cases combos 1000000000 with h | h
    · omega
    · exact h
  obtain ⟨ca, hca, hMa⟩ := hach
  have hfilt : ca ∈ combos.filter (fun c => unionSize c = combos.foldl minUF 1000000000) :=
    List.mem_filter.2 ⟨hca, by simp [hMa]⟩
  have hlast : (combos.filter
      (fun c => unionSize c = combos.foldl minUF 1000000000)).getLast?.isSome := by
    rw [List.getLast?_isSome]
    exact List.ne_nil_of_mem hfilt
  obtain ⟨cc, hcc⟩ := Option.isSome_iff_exists.1 hlast
  refine ⟨combos.foldl minUF 1000000000, cc, ?_, ?_, hcc⟩
  · rw [minUnionFold]
    have h2' := h2
    rw [hcc] at h2'
    exact Prod.ext h1 h2'
  · intro c hc
    exact minUF_fold_le_mem combos 1000000000 hc

theorem filter_append_split {α : Type} [DecidableEq α] (t d : List α)
    (hd : ∀ x ∈ d, x ∉ t) :
    (t ++ d).filter (fun i => !(i ∈ t : Bool)) = d := by
  rw [List.filter_append]
  have h1 : t.filter (fun i => !(i ∈ t : Bool)) = [] := by
    rw [List.filter_eq_nil_iff]
    intro a ha
    simp [ha]
  have h2 : d.filter (fun i => !(i ∈ t : Bool)) = d := by
    rw [List.filter_eq_self]
    intro a ha
    simp [hd a ha]
  rw [h1, h2, List.nil_append]

/-- On a duplicate-free list, filtering out the members of the first `k`
elements leaves exactly the elements after position `k`. -/
theorem filter_not_mem_take {α : Type} [DecidableEq α] (l : List α) (k : Nat)
    (h : l.Nodup) :
    l.filter (fun i => !(i ∈ l.take k : Bool)) = l.drop k := by
  have hsplit : l.filter (fun i => !(i ∈ l.take k : Bool)) =
      (l.take k ++ l.drop k).filter (fun i => !(i ∈ l.take k : Bool)) := by
    rw [List.take_append_drop]
  rw [hsplit]
  exact filter_append_split _ _ fun x hx ht => List.disjoint_take_drop h le_rfl ht hx

theorem prodList_mem {α : Type} :
    ∀ (ls : List (List α)) (cb : List α), cb ∈ prodList ls →
      cb.length = ls.length ∧
      ∀ (i : Nat) (x : α), cb[i]? = some x → ∃ li, ls[i]? = some li ∧ x ∈ li := by
  intro ls
  induction ls with
  | nil =>
    intro cb hc
    rw [prodList, List.mem_singleton] at hc
    subst hc
    exact ⟨rfl, by intro i x h; simp at h⟩
  | cons l ls ih =>
    intro cb hc
    rw [prodList, List.mem_flatMap] at hc
    obtain ⟨a, ha, hc⟩ := hc
    rw [List.mem_map] at hc
    obtain ⟨cb', hc', rfl⟩ := hc
    obtain ⟨hlen, hget⟩ := ih cb' hc'
    refine ⟨by simp [hlen], ?_⟩
    intro i x hx
    cases i with
    | zero =>
      simp only [List.getElem?_cons_zero, Option.some.injEq] at hx
      subst hx
      exact ⟨l, by simp, ha⟩
    | succ j =>
      simp only [List.getElem?_cons_succ] at hx ⊢
      exact hget j x hx

theorem shortTriples_perm (se : List Nat) (poss : List (List Nat)) :
    (shortTriples se poss).Perm
      (poss.map (fun l => ((reduceChain se l).length, reduceChain se l, l))) :=
  List.perm_insertionSort _ _

theorem shortTriples_sorted (se : List Nat) (poss : List (List Nat)) :
    List.Sorted TripleLe (shortTriples se poss) :=
  List.sorted_insertionSort _ _

theorem shortTriples_ne_nil (se : List Nat) {poss : List (List Nat)} (h : poss ≠ []) :
    shortTriples se poss ≠ [] := by
  intro he
  have hl := (shortTriples_perm se poss).length_eq
  rw [he, List.length_nil, List.length_map] at hl
  exact h (List.length_eq_zero.1 hl.symm)

/-- Every kept triple comes from a candidate chain and achieves the minimal
reduced length among all the power's candidates. -/
theorem keptTriples_mem (se : List Nat) (poss : List (List Nat))
    (u : Nat × List Nat × List Nat) (hu : u ∈ keptTriples se poss) :
    (∃ l ∈ poss, u = ((reduceChain se l).length, reduceChain se l, l)) ∧
    ∀ l ∈ poss, u.1 ≤ (reduceChain se l).length := by
  unfold keptTriples at hu
  cases hst : shortTriples se poss with
  | nil => rw [hst] at hu; cases hu
  | cons t rest =>
    rw [hst] at hu
    rw [List.mem_filter] at hu
    obtain ⟨humem, hueq⟩ := hu
    have hue : u.1 = t.1 := by simpa using hueq
    have hsort := shortTriples_sorted se poss
    rw [hst] at hsort
    have hmin : ∀ b ∈ t :: rest, t.1 ≤ b.1 := by
      intro b hb
      rcases List.mem_cons.1 hb with rfl | hb'
      · exact le_refl _
      · exact tripleLe_fst (List.rel_of_sorted_cons hsort b hb')
    constructor
    · have : u ∈ shortTriples se poss := hst ▸ humem
      have := (shortTriples_perm se poss).mem_iff.1 this
      rw [List.mem_map] at this
      obtain ⟨l, hl, he⟩ := this
      exact ⟨l, hl, he.symm⟩
    · intro l hl
      have hin : ((reduceChain se l).length, reduceChain se l, l) ∈ shortTriples se poss :=
        (shortTriples_perm se poss).mem_iff.2 (List.mem_map_of_mem _ hl)
      rw [hst] at hin
      have := hmin _ hin
      omega

theorem keptTriples_ne_nil (se : List Nat) {poss : List (List Nat)} (h : poss ≠ []) :
    keptTriples se poss ≠ [] := by
  unfold keptTriples
  cases hst : shortTriples se poss with
  | nil => exact absurd hst (shortTriples_ne_nil se h)
  | cons t rest =>
    apply List.ne_nil_of_mem (a := t)
    rw [List.mem_filter]
    exact ⟨List.mem_cons_self t rest, by simp⟩

theorem shortenedOf_ne_nil (se : List Nat) {poss : List (List Nat)} (h : poss ≠ []) :
    shortenedOf se poss ≠ [] := by
  unfold shortenedOf
  intro he
  exact keptTriples_ne_nil se h (List.map_eq_nil_iff.1 he)

theorem shortsDict_fst (se : List Nat) (poss : List (List Nat)) :
    (shortsDict se poss).map Prod.fst = shortenedOf se poss := by
  rw [shortsDict, shortenedOf, List.map_map]
  rfl

theorem shortenAndMap_eq (se : List Nat) {poss : List (List Nat)} (h : poss ≠ []) :
    shortenAndMap se poss = some (shortenedOf se poss, shortsDict se poss) := by
  unfold shortenAndMap
  cases hst : shortTriples se poss with
  | nil => exact absurd hst (shortTriples_ne_nil se h)
  | cons t rest => rfl

theorem dictLookup_isSome {α β : Type} [DecidableEq α] (pairs : List (α × β)) (k : α)
    (h : ∃ p ∈ pairs, p.1 = k) : (dictLookup pairs k).isSome := by
  obtain ⟨p, hp, he⟩ := h
  have hmem : p ∈ pairs.filter (fun q => q.1 = k) :=
    List.mem_filter.2 ⟨hp, by simp [he]⟩
  have hne : pairs.filter (fun q => q.1 = k) ≠ [] := List.ne_nil_of_mem hmem
  obtain ⟨q, hq⟩ := Option.isSome_iff_exists.1 (List.getLast?_isSome.2 hne)
  rw [dictLookup, hq]
  rfl

theorem dictLookup_mem {α β : Type} [DecidableEq α] {pairs : List (α × β)} {k : α} {v : β}
    (h : dictLookup pairs k = some v) : (k, v) ∈ pairs := by
  rw [dictLookup] at h
  cases hl : (pairs.filter (fun q => q.1 = k)).getLast? with
  | none => rw [hl] at h; cases h
  | some p =>
    rw [hl] at h
    simp only [Option.map_some', Option.some.injEq] at h
    have hp := getLast?_mem' hl
    rw [List.mem_filter] at hp
    obtain ⟨hmem, hkey⟩ := hp
    have hk : p.1 = k := by simpa using hkey
    have : p = (k, v) := by
      cases p
      simp_all
    exact this ▸ hmem

/-- Staged equation for the heuristic solver: once each stage's value is
known, the whole pipeline computes the advertised result. -/
theorem heuristic_eq_of (table : Int → Option (List (List Nat))) (powers0 : List Int)
    (k sl M : Nat) (ss : List (List Nat)) (things : List (List (List Nat)))
    (pairs : List (List (List Nat) × List (List Nat × List Nat)))
    (cc : List (List Nat)) (rsteps : List (List Nat))
    (hsmall : minimum_addition_chain_multi table
      ((pySort (· ≤ ·) powers0).take k) = .ok (sl, ss))
    (hfil : (pySort (· ≤ ·) powers0).filter
      (fun i => !(i ∈ (pySort (· ≤ ·) powers0).take k : Bool)) =
        (pySort (· ≤ ·) powers0).drop k)
    (htab : mapOpt table ((pySort (· ≤ ·) powers0).drop k) = some things)
    (hshort : mapOpt (shortenAndMap ss.flatten) things = some pairs)
    (hfold : minUnionFold (prodList (pairs.map Prod.fst)) = (M, some cc))
    (hmap : mapOpt (fun p => dictLookup p.2.2 p.1) (cc.zip pairs) = some rsteps) :
    minimum_addition_chain_multi_heuristic table powers0 k = .ok (sl + M, ss ++ rsteps) := by
  simp only [minimum_addition_chain_multi_heuristic]
  rw [hsmall]
  dsimp only
  rw [hfil, htab]
  dsimp only
  rw [hshort]
  dsimp only
  rw [hfold]
  dsimp only
  rw [hmap]

/-- C2: the heuristic solver sorts the powers, splits off the first
`small_chain_length`, solves them exactly, keeps for each remaining power
only the candidate chains minimizing the count of elements not already in
the union of the chosen small chains, runs the union-minimizing
last-tie-wins search over those reduced candidates, and returns the small
result extended by the remaining minimum and the chosen chains mapped back
to their full originals. -/
theorem claim_C2_heuristic_structure (table : Int → Option (List (List Nat)))
    (powers : List Int) (k sl : Nat) (ss : List (List Nat))
    (things : List (List (List Nat)))
    (hnd : powers.Nodup)
    (hsmall : minimum_addition_chain_multi table
      ((pySort (· ≤ ·) powers).take k) = .ok (sl, ss))
    (htab : mapOpt table ((pySort (· ≤ ·) powers).drop k) = some things)
    (hne : ∀ cs ∈ things, cs ≠ [])
    (hbound : ∀ cb ∈ prodList (things.map (shortenedOf ss.flatten)),
      unionSize cb < 1000000000) :
    ∃ (M : Nat) (rsteps cc : List (List Nat)),
      minimum_addition_chain_multi_heuristic table powers k = .ok (sl + M, ss ++ rsteps) ∧
      (∀ cb ∈ prodList (things.map (shortenedOf ss.flatten)), M ≤ unionSize cb) ∧
      ((prodList (things.map (shortenedOf ss.flatten))).filter
        (fun cb => unionSize cb = M)).getLast? = some cc ∧
      rsteps.length = things.length ∧ cc.length = things.length ∧
      (∀ (i : Nat) (p : Int), ((pySort (· ≤ ·) powers).drop k)[i]? = some p →
        ∃ cs, table p = some cs ∧ things[i]? = some cs) ∧
      (∀ (i : Nat) (r cb : List Nat), rsteps[i]? = some r → cc[i]? = some cb →
        ∃ cs, things[i]? = some cs ∧ r ∈ cs ∧
          reduceChain ss.flatten r = cb ∧
          ∀ l ∈ cs, (reduceChain ss.flatten r).length ≤ (reduceChain ss.flatten l).length) := by
  have hspnd : (pySort (α := Int) (· ≤ ·) powers).Nodup :=
    (List.perm_insertionSort _ powers).nodup_iff.2 hnd
  have hfil := filter_not_mem_take (pySort (· ≤ ·) powers) k hspnd
  have hshort : mapOpt (shortenAndMap ss.flatten) things =
      some (things.map (fun cs => (shortenedOf ss.flatten cs, shortsDict ss.flatten cs))) :=
    mapOpt_eq_map _ _ things fun cs hcs => shortenAndMap_eq _ (hne cs hcs)
  have hfst : (things.map
        (fun cs => (shortenedOf ss.flatten cs, shortsDict ss.flatten cs))).map Prod.fst =
      things.map (shortenedOf ss.flatten) := by
    rw [List.map_map]
    rfl
  have hcne : prodList (things.map (shortenedOf ss.flatten)) ≠ [] := by
    apply prodList_ne_nil
    intro l hl
    rw [List.mem_map] at hl
    obtain ⟨cs, hcs, rfl⟩ := hl
    exact shortenedOf_ne_nil _ (hne cs hcs)
  obtain ⟨M, cc, hfold, hmin, hlast⟩ := minUnionFold_result _ hcne hbound
  have hccmem : cc ∈ prodList (things.map (shortenedOf ss.flatten)) :=
    (List.mem_filter.1 (getLast?_mem' hlast)).1
  obtain ⟨hcclen0, hccget⟩ := prodList_mem _ cc hccmem
  have hcclen : cc.length = things.length := by
    rw [hcclen0, List.length_map]
  have hlook : ∀ pz ∈ cc.zip (things.map
      (fun cs => (shortenedOf ss.flatten cs, shortsDict ss.flatten cs))),
      ((fun p => dictLookup p.2.2 p.1) pz).isSome := by
    intro pz hpz
    obtain ⟨i, hi⟩ := List.mem_iff_getElem?.1 hpz
    obtain ⟨h1, h2⟩ := List.getElem?_zip_eq_some.1 hi
    rw [List.getElem?_map] at h2
    cases hth : things[i]? with
    | none => rw [hth] at h2; cases h2
    | some cs =>
      rw [hth] at h2
      simp only [Option.map_some', Option.some.injEq] at h2
      obtain ⟨li, hli, hmemli⟩ := hccget i pz.1 h1
      rw [List.getElem?_map, hth] at hli
      simp only [Option.map_some', Option.some.injEq] at hli
      rw [← hli] at hmemli
      apply dictLookup_isSome
      rw [← h2]
      rw [shortenedOf, List.mem_map] at hmemli
      obtain ⟨u, hu, hue⟩ := hmemli
      exact ⟨(u.2.1, u.2.2), List.mem_map_of_mem _ hu, by simp [hue]⟩
  obtain ⟨rsteps, hrst⟩ := mapOpt_isSome _ _ hlook
  have hfold' : minUnionFold (prodList ((things.map
      (fun cs => (shortenedOf ss.flatten cs, shortsDict ss.flatten cs))).map Prod.fst)) =
      (M, some cc) := by
    rw [hfst]
    exact hfold
  have hrun := heuristic_eq_of table powers k sl M ss things _ cc rsteps
    hsmall hfil htab hshort hfold' hrst
  have hrlen : rsteps.length = things.length := by
    have hz := mapOpt_some_length _ hrst
    rw [List.length_zip, hcclen, List.length_map] at hz
    simpa using hz
  refine ⟨M, rsteps, cc, hrun, hmin, hlast, hrlen, hcclen, ?_, ?_⟩
  · intro i p hp
    exact mapOpt_some_get table htab i p hp
  · intro i r cb hr hcb
    obtain ⟨hilt0, _⟩ := List.getElem?_eq_some.1 hcb
    have hilt : i < things.length := by rw [← hcclen]; exact hilt0
    have hth : things[i]? = some things[i] := List.getElem?_eq_getElem hilt
    have hpi : (things.map
        (fun cs => (shortenedOf ss.flatten cs, shortsDict ss.flatten cs)))[i]? =
        some (shortenedOf ss.flatten things[i], shortsDict ss.flatten things[i]) := by
      rw [List.getElem?_map, hth]
      rfl
    have hzip : (cc.zip (things.map
        (fun cs => (shortenedOf ss.flatten cs, shortsDict ss.flatten cs))))[i]? =
        some (cb, (shortenedOf ss.flatten things[i], shortsDict ss.flatten things[i])) :=
      List.getElem?_zip_eq_some.2 ⟨hcb, hpi⟩
    obtain ⟨b, hb, hrb⟩ := mapOpt_some_get _ hrst i _ hzip
    rw [hr] at hrb
    have hbr : b = r := by
      injection hrb with h
      exact h.symm
    subst hbr
    have hdm := dictLookup_mem hb
    simp only [shortsDict, List.mem_map] at hdm
    obtain ⟨u, hu, hue⟩ := hdm
    rw [Prod.mk.injEq] at hue
    obtain ⟨hue1, hue2⟩ := hue
    obtain ⟨⟨l, hl, hul⟩, humin⟩ := keptTriples_mem _ _ u hu
    subst hul
    simp only at hue1 hue2 humin
    refine ⟨things[i], hth, ?_, ?_, ?_⟩
    · rw [← hue2]
      exact hl
    · rw [← hue2]
      exact hue1
    · intro l' hl'
      have := humin l' hl'
      rw [← hue2]
      omega

theorem claim_C2_witness :
    ∃ (M : Nat) (rsteps cc : List (List Nat)),
      minimum_addition_chain_multi_heuristic tableW [5, 2, 3] 1 =
        .ok (1 + M, ssW ++ rsteps) ∧
      (∀ cb ∈ prodList (thingsW.map (shortenedOf ssW.flatten)), M ≤ unionSize cb) ∧
      ((prodList (thingsW.map (shortenedOf ssW.flatten))).filter
        (fun cb => unionSize cb = M)).getLast? = some cc ∧
      rsteps.length = thingsW.length ∧ cc.length = thingsW.length ∧
      (∀ (i : Nat) (p : Int), ((pySort (· ≤ ·) [5, 2, 3]).drop 1)[i]? = some p →
        ∃ cs, tableW p = some cs ∧ thingsW[i]? = some cs) ∧
      (∀ (i : Nat) (r cb : List Nat), rsteps[i]? = some r → cc[i]? = some cb →
        ∃ cs, thingsW[i]? = some cs ∧ r ∈ cs ∧
          reduceChain ssW.flatten r = cb ∧
          ∀ l ∈ cs, (reduceChain ssW.flatten r).length ≤
            (reduceChain ssW.flatten l).length) :=
  claim_C2_heuristic_structure tableW [5, 2, 3] 1 1 ssW thingsW
    (by decide) (by decide) (by decide) (by decide) (by decide)

end MathOpt
